import Mathlib

/-!
Shallow embedding of the `t-diagram` package (src/constants.js, src/helpers.js,
src/diagram.js, src/cost.js, src/drawer.js) in Lean 4.

Modelling conventions:
* JavaScript numbers are modelled as exact rationals (`ℚ`); the cost formula,
  which needs `exp`, is modelled over `ℝ`.
* A JavaScript object keyed by node names (the geometry map, the bend map) is
  modelled as an insertion-ordered association list with pairwise-distinct
  keys; property assignment replaces the value in place and adds new keys at
  the end, exactly like JS property assignment.
* `Math.random()` draws and the random fresh break-node names are passed in
  explicitly (a draw function `Nat → ℚ`, a name list), so every stochastic
  function is a deterministic function of its draws.
* Recursions that the source runs on acyclic data are given explicit fuel
  bounds that are large enough for every acyclic input, so that every
  definition evaluates by kernel reduction.
-/

namespace TDia

/-! ### constants.js -/

/-- `POINTING_UP` from constants.js: the four directions are encoded `0..3` so
that clockwise rotation is `(d+1) % 4` and counterclockwise is `(4+d-1) % 4`. -/
def POINTING_UP : Int := 0

/-- `POINTING_RIGHT` from constants.js. -/
def POINTING_RIGHT : Int := 1

/-- `POINTING_DOWN` from constants.js. -/
def POINTING_DOWN : Int := 2

/-- `POINTING_LEFT` from constants.js. -/
def POINTING_LEFT : Int := 3

/-- `HORIZONTAL` from constants.js: `pointing % 2 == HORIZONTAL` for RIGHT/LEFT. -/
def HORIZONTAL : Int := 1

/-- `VERTICAL` from constants.js: `pointing % 2 == VERTICAL` for UP/DOWN. -/
def VERTICAL : Int := 0

/-! ### Data model -/

/-- A coordinate pair, the `coordinates` object `{x, y}` of diagram.js. -/
structure Coords where
  x : ℚ
  y : ℚ
deriving DecidableEq

/-- One input node of a diagram list (the record documented at the top of
diagram.js). `branch_at = none` models an absent/`null`/`undefined`
`branch_at` property. `hidden` is `false` for user input; rebuilt node lists
produced by `updateFromGeometry` carry the `hidden` flag of geometry nodes. -/
structure DNode where
  name : String
  parent : String
  direction : String
  length : ℚ
  branch_at : Option ℚ
  seq : ℚ
  hidden : Bool
deriving DecidableEq

/-- One value of the geometry map produced by `TDiagram.getGeometry`:
coordinates, pointing, length, parent name, ordered child names, hidden flag
and (when present on the tree node) `branch_at`. -/
structure GNode where
  name : String
  coordinates : Coords
  pointing : Int
  length : ℚ
  parent : String
  children : List String
  hidden : Bool
  branch_at : Option ℚ
deriving DecidableEq

instance : Inhabited GNode :=
  ⟨{ name := "", coordinates := ⟨0, 0⟩, pointing := 0, length := 0,
     parent := "", children := [], hidden := false, branch_at := none }⟩

/-- The geometry map `self.geometry`: a name-keyed JS object, modelled as an
insertion-ordered association list. -/
abbrev Geo : Type := List (String × GNode)

/-- `geo[k]` as an `Option` (`undefined` when the key is absent). -/
def geoFind (g : Geo) (k : String) : Option GNode :=
  (List.find? (fun p => p.1 = k) g).map (fun p => p.2)

/-- `geo[k]`, with the (never observed under the well-formedness hypotheses of
the theorems below) `undefined` case collapsed to the default node. -/
def geoGet (g : Geo) (k : String) : GNode :=
  (geoFind g k).getD default

/-- `k in geo`. -/
def hasKey (g : Geo) (k : String) : Bool :=
  List.any g (fun p => p.1 = k)

/-- JS property assignment `geo[k] = v`: replaces the value at an existing key
in place, otherwise appends the new key at the end (insertion order). -/
def geoSet (g : Geo) (k : String) (v : GNode) : Geo :=
  if hasKey g k then List.map (fun p => if p.1 = k then (k, v) else p) g
  else g ++ [(k, v)]

/-- `Object.keys(geo)` in insertion order. -/
def geoKeys (g : Geo) : List String :=
  List.map (fun p : String × GNode => p.1) g

/-! ### helpers.js: binarySearch -/

/-- `arr[i]` for a possibly out-of-range signed index; the source would read
`undefined` there, which the loop invariants below never let happen. -/
def getT {α : Type} (arr : List α) (dflt : α) (i : Int) : α :=
  if 0 ≤ i then arr.getD i.toNat dflt else dflt

/-- The code after the `while` loop of `binarySearch` (helpers.js lines
356-365): clamp the last `mid`, look at `mid-1` and `mid`, and return the
index of the smallest element `> x`, or one past it. -/
def bsPost {α : Type} (arr : List α) (tr : α → ℚ) (dflt : α) (x : ℚ) (mid : Int) : Int :=
  let len : Int := arr.length
  let mid2 := min (max 0 mid) (len - 1)
  let i1 := max 0 (mid2 - 1)
  if tr (getT arr dflt i1) - x > 0 then i1
  else if tr (getT arr dflt mid2) - x > 0 then mid2
  else mid2 + 1

/-- The `while (m <= M)` loop of `binarySearch` (helpers.js lines 344-354).
`mid = m + Math.round((M-m)/2)` equals `m + (M-m+1)/2` in integer division
because `M-m ≥ 0` inside the loop and `Math.round` rounds halves up. The
`fuel` argument only bounds the number of iterations; the span `M-m` shrinks
every iteration, so `arr.length + 1` fuel is always enough, and the fuel-0
fallthrough coincides with the loop-exit fallthrough. -/
def bsGo {α : Type} (arr : List α) (tr : α → ℚ) (dflt : α) (x : ℚ) :
    Int → Int → Int → Nat → Int
  | _, _, mid, 0 => bsPost arr tr dflt x mid
  | m, M, mid, fuel + 1 =>
    if m ≤ M then
      let mid' := m + (M - m + 1) / 2
      let v := tr (getT arr dflt mid')
      if v - x = 0 then mid'
      else if v - x < 0 then bsGo arr tr dflt x (mid' + 1) M mid' fuel
      else bsGo arr tr dflt x m (mid' - 1) mid' fuel
    else bsPost arr tr dflt x mid

/-- `binarySearch(arr, x, trans)` from helpers.js: the index of the smallest
element `y` (under `trans`) with `y >= x`. The source leaves `mid`
uninitialised before the loop; for a non-empty array the loop always runs, so
the initial value `0` is never observed (an empty array makes the source
return `NaN`; the claims below only concern non-empty arrays). -/
def binarySearch {α : Type} (arr : List α) (x : ℚ) (tr : α → ℚ) (dflt : α) : Int :=
  bsGo arr tr dflt x 0 ((arr.length : Int) - 1) 0 (arr.length + 1)

/-! ### diagram.js: tree building and coordinate assignment -/

/-- The children a node ends up with after the tree-building fold of the
`TDiagram` constructor: exactly the input entries naming it as parent, in
input order. -/
def childrenOf (l : List DNode) (n : String) : List DNode :=
  List.filter (fun c => c.parent = n) l

/-- `getRoot` of diagram.js: the first entry of the folded tree map, i.e. the
first input node whose declared parent is not the name of any input node. -/
def getRootD (l : List DNode) : DNode :=
  (List.find? (fun d => !(List.any l (fun p => p.name = d.parent))) l).getD
    { name := "", parent := "", direction := "right", length := 0,
      branch_at := none, seq := 0, hidden := false }

/-- `getCoordToUpdate` of `setUpCoordinates`: update `x` when the given
pointing is RIGHT or LEFT, `y` otherwise. `true` means the `x` axis. -/
def getCoordToUpdate (pointing_dir : Int) : Bool :=
  pointing_dir = POINTING_RIGHT || pointing_dir = POINTING_LEFT

/-- `getDirectionToUpdate` of `setUpCoordinates`: `+1` for RIGHT or DOWN,
`-1` otherwise. -/
def getDirectionToUpdate (pointing_dir : Int) : ℚ :=
  if pointing_dir = POINTING_RIGHT || pointing_dir = POINTING_DOWN then 1 else -1

/-- `coordinates[getCoordToUpdate(p)] += delta * getDirectionToUpdate(p)`. -/
def applyDelta (c : Coords) (p : Int) (delta : ℚ) : Coords :=
  if getCoordToUpdate p then { c with x := c.x + delta * getDirectionToUpdate p }
  else { c with y := c.y + delta * getDirectionToUpdate p }

/-- The context a recursive `setUpCoordinates` call receives from its parent:
the parent's computed coordinates and pointing, its `length`, and
`parent.children.length` at call time (the synthetic end child has not been
appended yet at that point, so this is the number of real children). -/
structure Ctx where
  coordinates : Coords
  pointing : Int
  length : ℚ
  childCount : ℚ

/-- The `delta` of `setUpCoordinates` (diagram.js lines 152-154):
`branch_at` when present, else `(seq+1) / parent.children.length *
parent.length`. -/
def branchDelta (d : DNode) (pc : Ctx) : ℚ :=
  match d.branch_at with
  | some b => b
  | none => (d.seq + 1) / pc.childCount * pc.length

/-- The node's own coordinates as computed by `setUpCoordinates` lines
147-156: start from the parent's coordinates and shift the axis selected by
the parent's pointing by the signed delta. -/
def placeNode (d : DNode) (pc : Ctx) : Coords :=
  applyDelta pc.coordinates pc.pointing (branchDelta d pc)

/-- The pointing passed to a child's recursive call (diagram.js line 161):
`(4 + pointing + angle) % 4` with `angle = 1` for `direction == 'right'` and
`-1` otherwise. -/
def childPointing (pointing : Int) (direction : String) : Int :=
  (4 + pointing + (if direction = "right" then 1 else -1)) % 4

/-- The geometry entry `getGeometry` produces for the synthetic segment-end
child appended by `setUpCoordinates` (diagram.js lines 164-188): hidden, zero
length, `branch_at = length`, placed `length` along the node's own pointing
from the node's coordinates. -/
def endEntry (name : String) (coords : Coords) (pointing : Int) (length : ℚ) :
    String × GNode :=
  (name ++ "_end",
   { name := name ++ "_end",
     coordinates := applyDelta coords pointing length,
     pointing := pointing, length := 0, parent := name,
     children := [], hidden := true, branch_at := some length })

/-- `setUpCoordinates` (diagram.js lines 136-190) fused with `getGeometry`
(lines 283-310): recursively place the node given its parent's context and
its own pointing, recurse into the children the tree fold gave it, append the
synthetic end child, and emit the geometry map of the subtree in the
depth-first preorder in which `getGeometry`'s `extendObjs` folds merge it.
`fuel` bounds the recursion depth; `l.length + 1` is enough for every
acyclic input. -/
def setUpCoordinates (l : List DNode) : DNode → Ctx → Int → Nat → Geo
  | _, _, _, 0 => []
  | d, pc, pointing, fuel + 1 =>
    let coords := placeNode d pc
    let cs := childrenOf l d.name
    let ctx : Ctx := ⟨coords, pointing, d.length, (cs.length : ℚ)⟩
    let childGeos := List.map
      (fun c => setUpCoordinates l c ctx (childPointing pointing c.direction) fuel) cs
    (d.name,
      { name := d.name, coordinates := coords, pointing := pointing,
        length := d.length, parent := d.parent,
        children := List.map (fun c : DNode => c.name) cs ++ [d.name ++ "_end"],
        hidden := d.hidden, branch_at := d.branch_at })
      :: (childGeos.flatten ++ [endEntry d.name coords pointing d.length])

/-- `computeCoord` (diagram.js lines 200-213) followed by `getGeometry`: the
root is set up against the dummy parent `{coordinates: (0,0), length: 0,
pointing: POINTING_UP, children: [root]}` with the default initial pointing
`POINTING_RIGHT`. -/
def diagramGeometry (l : List DNode) : Geo :=
  setUpCoordinates l (getRootD l) ⟨⟨0, 0⟩, POINTING_UP, 0, 1⟩ POINTING_RIGHT (l.length + 1)

/-! ### cost.js: TDiagramCost -/

/-- The state a `TDiagramCost` instance carries: the captured geometry map and
the running bend count `num_branches`. -/
structure CostState where
  geometry : Geo
  num_branches : Nat
deriving DecidableEq

/-- The `TDiagramCost` constructor: capture `tdiagram.getGeometry()` and set
`num_branches = 0`. -/
def initCost (l : List DNode) : CostState :=
  ⟨diagramGeometry l, 0⟩

/-- The record returned by `TDiagramCost.cost`. -/
structure CostRec where
  branches_factor : ℝ
  intersection_factor : ℝ
  ar_factor : ℝ
  total : ℝ

/-- `TDiagramCost.cost(alpha, beta, gamma, prefered_aspect_ratio)` (cost.js
lines 216-235). The state reads `self.num_branches`, `self.intersections()`
and the canvas width/height are passed as the arguments `num_branches`,
`intersections`, `w`, `h`. -/
noncomputable def cost (num_branches : ℕ) (intersections : ℕ) (w h : ℝ)
    (alpha beta gamma pref : ℝ) : CostRec :=
  let branches_factor : ℝ := (num_branches : ℝ) ^ (2 : ℕ)
  let ar_diagram := w / h
  let ar := Real.exp (max ar_diagram pref / min ar_diagram pref - 1)
  { branches_factor := branches_factor,
    intersection_factor := (intersections : ℝ),
    ar_factor := ar - 1,
    total := alpha * branches_factor + beta * (intersections : ℝ) + ar ^ gamma - 1 }

/-- The Manhattan distance from a node's coordinates to a child's coordinates
(cost.js lines 271-275), the monotone proxy for distance along the branch. -/
def childDist (g : Geo) (nd : GNode) (c : String) : ℚ :=
  |(geoGet g c).coordinates.x - nd.coordinates.x| +
    |(geoGet g c).coordinates.y - nd.coordinates.y|

/-- One iteration of the `Object.keys(breaks).forEach` loop of
`introduceBreaks` (cost.js lines 258-312), applied to the entry
`(node, break_at)` with the fresh break-node name `bname` (the source draws
`'b' + rand` until it is unused; the name is passed in here).

Steps, in source order: `l = length * break_at`; distances of the children;
`index_to_break = binarySearch(arr, l)`; `newChildren =
children.splice(index_to_break)`; push `bname`; push
`newChildren.splice(-1)[0]` (the positionally last moved child — the
segment-end child — goes back to the node; when nothing was moved the source
pushes `undefined`, a case the end child's distance makes unreachable and
which this model drops); build the break node from the pre-update fields;
shrink the node's length to `l`; re-parent the moved children; store the
break node under `bname`. -/
def introduceBreak (g : Geo) (node : String) (break_at : ℚ) (bname : String) : Geo :=
  let nd := geoGet g node
  let l := nd.length * break_at
  let arr := List.map (childDist g nd) nd.children
  let idx := (binarySearch arr l (fun q => q) 0).toNat
  let newChildren := nd.children.drop idx
  let kept := nd.children.take idx
  let keptChildren :=
    match newChildren.getLast? with
    | some e => kept ++ [bname, e]
    | none => kept ++ [bname]
  let moved := newChildren.dropLast
  let break_node : GNode :=
    { name := bname,
      coordinates :=
        { x := nd.coordinates.x +
            ((nd.pointing % 2 : Int) : ℚ) *
              (if nd.pointing = POINTING_RIGHT then 1 else -1) * l,
          y := nd.coordinates.y +
            (((nd.pointing + 1) % 2 : Int) : ℚ) *
              (if nd.pointing = POINTING_DOWN then 1 else -1) * l },
      pointing := if nd.pointing % 2 = VERTICAL then POINTING_RIGHT else POINTING_UP,
      length := nd.length - l,
      parent := node,
      children := moved,
      hidden := true,
      branch_at := some l }
  let g1 := geoSet g node { nd with children := keptChildren, length := l }
  let g2 := List.foldl (fun g c => geoSet g c { geoGet g c with parent := bname }) g1 moved
  geoSet g2 bname break_node

/-- The whole per-entry mutation loop of `introduceBreaks`, one fresh name per
bend-map entry. -/
def breaksMutate (g : Geo) (pairs : List ((String × ℚ) × String)) : Geo :=
  List.foldl (fun g p => introduceBreak g p.1.1 p.1.2 p.2) g pairs

/-- The direction/seq recomputation `updateFromGeometry` performs on each
non-`_end` geometry node (cost.js lines 326-340): the root keeps
`direction = 'right', seq = 0`; otherwise `direction` is `'left'` iff
`parent.pointing - node.pointing > 0` and `seq` is
`parent.children.indexOf(name)`. -/
def recomputeNode (g : Geo) (k : String) : DNode :=
  let node := geoGet g k
  if node.parent = "" then
    { name := k, parent := node.parent, direction := "right", seq := 0,
      length := node.length, branch_at := node.branch_at, hidden := node.hidden }
  else
    let parent := geoGet g node.parent
    { name := k, parent := node.parent,
      direction := if parent.pointing - node.pointing > 0 then "left" else "right",
      seq := match List.findIdx? (fun c => c = k) parent.children with
             | some i => (i : ℚ)
             | none => -1,
      length := node.length, branch_at := node.branch_at, hidden := node.hidden }

/-- The inner `while` of the topological sort of `updateFromGeometry` (cost.js
lines 349-356): climb from the popped node's parent towards the root, pushing
each not-yet-added ancestor and marking it added, stopping at an added
ancestor or at a parent that is not a geometry key. `fuel ≥ g.length` is
enough for every acyclic geometry. -/
def topoClimb (g : Geo) : List String → DNode → Nat → List DNode × List String
  | added, _, 0 => ([], added)
  | added, p, fuel + 1 =>
    if added.contains p.name then ([], added)
    else
      let added' := p.name :: added
      if hasKey g p.parent then
        let r := topoClimb g added' (recomputeNode g p.parent) fuel
        (p :: r.1, r.2)
      else ([p], added')

/-- The recursive `sort` of `updateFromGeometry` (cost.js lines 343-362),
popping from the end of the node list: an already-added node contributes
nothing; otherwise the chunk `[node, parent, grandparent, ...]` is built,
reversed, and prepended to the sort of the rest. The argument is the node
list already reversed, so popping is taking the head. -/
def topoGo (g : Geo) : List String → List DNode → List DNode
  | _, [] => []
  | added, node :: rest =>
    if added.contains node.name then topoGo g added rest
    else
      let r :=
        if hasKey g node.parent then topoClimb g added (recomputeNode g node.parent) g.length
        else ([], added)
      (node :: r.1).reverse ++ topoGo g (node.name :: r.2) rest

/-- `updateFromGeometry` (cost.js lines 324-368): recompute `direction`/`seq`
for every non-`_end` key, topologically sort so parents precede children,
rebuild a `TDiagram` from the sorted list, recompute coordinates and take its
fresh geometry. -/
def updateFromGeometry (g : Geo) : Geo :=
  let td := List.map (recomputeNode g)
    (List.filter (fun k => !(String.endsWith k "_end")) (geoKeys g))
  let sorted := topoGo g [] td.reverse
  diagramGeometry sorted

/-- `TDiagramCost.introduceBreaks(breaks)` (cost.js lines 247-316):
`num_branches = Object.keys(breaks).length`, then the per-entry mutation
loop, then `updateFromGeometry`. The bend map is its ordered entry list
`breaks` (keys pairwise distinct, as in any JS object); `bnames` supplies the
fresh break-node names the source draws at random. -/
def introduceBreaks (st : CostState) (breaks : List (String × ℚ))
    (bnames : List String) : CostState :=
  ⟨updateFromGeometry (breaksMutate st.geometry (breaks.zip bnames)), breaks.length⟩

/-! ### drawer.js: TDiagramDrawer -/

/-- A graded specimen, reduced to what selection observes: its position-stable
identity and its cached `cost.total`. -/
structure Specimen where
  id : Nat
  total : ℚ
deriving DecidableEq

/-- The `max` computed by `performSelection` (drawer.js lines 105-107):
`reduce((t, x) => t < x.cost.total ? x.cost.total : t, 0)` — the largest
total, with floor 0. -/
def maxCost (pop : List Specimen) : ℚ :=
  List.foldl (fun t x => if t < x.total then x.total else t) 0 pop

/-- The `filter` of `performSelection` (drawer.js lines 108-110): the i-th
retained test draws `rand i` (one `Math.random()` call per array element, in
array order). -/
def selectGo (rand : Nat → ℚ) (m : ℚ) : Nat → List Specimen → List Specimen
  | _, [] => []
  | i, s :: rest =>
    if s.total < rand i * m then s :: selectGo rand m (i + 1) rest
    else selectGo rand m (i + 1) rest

/-- `performSelection` (drawer.js lines 104-111). -/
def performSelection (pop : List Specimen) (rand : Nat → ℚ) : List Specimen :=
  selectGo rand (maxCost pop) 0 pop

/-- The clamp expression of the breeding-step mutation (drawer.js line 158):
`Math.min(0.1, Math.max(0.9, x))`. -/
def mutateClamp (x : ℚ) : ℚ :=
  min (1 / 10) (max (9 / 10) x)

/-- The whole mutated value of drawer.js line 158:
`Math.min(0.1, Math.max(0.9, breaks[k] + Math.random() * 0.1 - 0.05))`. -/
def mutateFraction (v r : ℚ) : ℚ :=
  mutateClamp (v + r * (1 / 10) - 1 / 20)

/-- The branch-removal event of the breeding step (drawer.js lines 161-165):
`branches = Object.keys(breaks); rand_branch = branches[i]; delete
branches[rand_branch]`. The `delete` targets the string-named property
`rand_branch` of the temporary key *array* `branches`, not an entry of the
`breaks` map, so `breaks` flows on unchanged; the temporary is dropped. -/
def removeBranchEvent (breaks : List (String × ℚ)) (i : Nat) : List (String × ℚ) :=
  let branches := List.map (fun p : String × ℚ => p.1) breaks
  let _rand_branch := branches.getD i ""
  breaks

/-- What the spec says the removal event does: `delete breaks[k]` on the bend
map itself (spec-side definition, for comparison with `removeBranchEvent`). -/
def jsDeleteKey (m : List (String × ℚ)) (k : String) : List (String × ℚ) :=
  List.filter (fun p => p.1 ≠ k) m

/-- The contract of `binarySearch` on an array sorted under `tr`: the result
`i` lies in `[0, arr.length]`; either it points at an entry whose transformed
value is the smallest one `≥ x`, or it is `arr.length` and every transformed
value is `< x`. -/
def searchOutcome {α : Type} (arr : List α) (tr : α → ℚ) (dflt : α) (x : ℚ)
    (i : Int) : Prop :=
  0 ≤ i ∧ i ≤ (arr.length : Int) ∧
    ((i < (arr.length : Int) ∧ x ≤ tr (getT arr dflt i) ∧
        ∀ j : Int, 0 ≤ j → j < (arr.length : Int) →
          x ≤ tr (getT arr dflt j) → tr (getT arr dflt i) ≤ tr (getT arr dflt j)) ∨
      (i = (arr.length : Int) ∧
        ∀ j : Int, 0 ≤ j → j < (arr.length : Int) → tr (getT arr dflt j) < x))

/-! ### Concrete fixtures used by counterexample and witness theorems -/

/-- A three-node diagram `R → A (left) → B (left)`: `R` points RIGHT, `A`
points UP, `B` points LEFT. -/
def exC6 : List DNode :=
  [{ name := "R", parent := "", direction := "right", length := 10,
     branch_at := none, seq := 0, hidden := false },
   { name := "A", parent := "R", direction := "left", length := 10,
     branch_at := none, seq := 0, hidden := false },
   { name := "B", parent := "A", direction := "left", length := 10,
     branch_at := none, seq := 0, hidden := false }]

/-- A four-node chain of `right` turns, so `B` points LEFT, with a child `C`
attached to `B` at the explicit offset `branch_at = 5`. -/
def exC3 : List DNode :=
  [{ name := "R", parent := "", direction := "right", length := 10,
     branch_at := none, seq := 0, hidden := false },
   { name := "A", parent := "R", direction := "right", length := 10,
     branch_at := none, seq := 0, hidden := false },
   { name := "B", parent := "A", direction := "right", length := 10,
     branch_at := none, seq := 0, hidden := false },
   { name := "C", parent := "B", direction := "right", length := 7,
     branch_at := some 5, seq := 0, hidden := false }]

/-- A captured geometry in which the RIGHT-pointing node `n` of length 10 has
two children `A` and `B` at the same branch offset 5 (reachable by giving two
siblings the same `branch_at`), plus its segment-end child at distance 10. -/
def gTie : Geo :=
  [("n", { name := "n", coordinates := ⟨0, 0⟩, pointing := 1, length := 10,
           parent := "", children := ["A", "B", "n_end"], hidden := false,
           branch_at := none }),
   ("A", { name := "A", coordinates := ⟨5, 0⟩, pointing := 2, length := 3,
           parent := "n", children := ["A_end"], hidden := false,
           branch_at := some 5 }),
   ("B", { name := "B", coordinates := ⟨5, 0⟩, pointing := 0, length := 3,
           parent := "n", children := ["B_end"], hidden := false,
           branch_at := some 5 }),
   ("n_end", { name := "n_end", coordinates := ⟨10, 0⟩, pointing := 1,
               length := 0, parent := "n", children := [], hidden := true,
               branch_at := some 10 })]

/-- A captured geometry with a single RIGHT-pointing (horizontal-class) node
`h` of length 10 and its segment-end child. -/
def gH : Geo :=
  [("h", { name := "h", coordinates := ⟨0, 0⟩, pointing := 1, length := 10,
           parent := "", children := ["h_end"], hidden := false,
           branch_at := none }),
   ("h_end", { name := "h_end", coordinates := ⟨10, 0⟩, pointing := 1,
               length := 0, parent := "h", children := [], hidden := true,
               branch_at := some 10 })]

/-- A captured geometry with a single UP-pointing (vertical-class) node `v`
of length 10 and its segment-end child. -/
def gV : Geo :=
  [("v", { name := "v", coordinates := ⟨0, 0⟩, pointing := 0, length := 10,
           parent := "", children := ["v_end"], hidden := false,
           branch_at := none }),
   ("v_end", { name := "v_end", coordinates := ⟨0, -10⟩, pointing := 0,
               length := 0, parent := "v", children := [], hidden := true,
               branch_at := some 10 })]

/-- The RIGHT-pointing node of `gW`, length 10, children at distances 3, 7
and (the segment end) 10. -/
def ndW : GNode :=
  { name := "n", coordinates := ⟨0, 0⟩, pointing := 1, length := 10,
    parent := "", children := ["A", "B", "n_end"], hidden := false,
    branch_at := none }

/-- A captured geometry in which the RIGHT-pointing node `n` of length 10 has
children `A` at distance 3, `B` at distance 7 and its segment-end child at
distance 10: strictly increasing child distances. -/
def gW : Geo :=
  [("n", ndW),
   ("A", { name := "A", coordinates := ⟨3, 0⟩, pointing := 2, length := 3,
           parent := "n", children := ["A_end"], hidden := false,
           branch_at := some 3 }),
   ("B", { name := "B", coordinates := ⟨7, 0⟩, pointing := 0, length := 3,
           parent := "n", children := ["B_end"], hidden := false,
           branch_at := some 7 }),
   ("n_end", { name := "n_end", coordinates := ⟨10, 0⟩, pointing := 1,
               length := 0, parent := "n", children := [], hidden := true,
               branch_at := some 10 })]

end TDia

/-! ## Theorems -/

namespace TDia

/-! ### Geometry-map lemmas -/

theorem geoGet_of_find {g : Geo} {k : String} {v : GNode}
    (h : geoFind g k = some v) : geoGet g k = v := by
  simp [geoGet, h]

theorem find_set_mem (g : Geo) (k : String) (v : GNode) (h : hasKey g k = true) :
    List.find? (fun p => p.1 = k) (List.map (fun p => if p.1 = k then (k, v) else p) g)
      = some (k, v) := by
  induction g with
  | nil => simp [hasKey] at h
  | cons p rest ih =>
    by_cases hp : p.1 = k
    · rw [List.map_cons, if_pos hp, List.find?_cons_of_pos _ (by simp)]
    · rw [List.map_cons, if_neg hp, List.find?_cons_of_neg _ (by simpa using hp)]
      apply ih
      simp only [hasKey, List.any_cons, Bool.or_eq_true, decide_eq_true_eq] at h
      rcases h with h | h
      · exact absurd h hp
      · exact h

theorem find_not_hasKey (g : Geo) (k : String) (h : hasKey g k = false) :
    List.find? (fun p => p.1 = k) g = none := by
  rw [List.find?_eq_none]
  intro q hq hqk
  have hcontra : hasKey g k = true := by
    simp only [hasKey, List.any_eq_true]
    exact ⟨q, hq, hqk⟩
  rw [h] at hcontra
  exact Bool.false_ne_true hcontra

theorem geoFind_geoSet_self (g : Geo) (k : String) (v : GNode) :
    geoFind (geoSet g k v) k = some v := by
  unfold geoSet
  split
  · next h => rw [geoFind, find_set_mem g k v h]; rfl
  · next h =>
    rw [geoFind, List.find?_append,
      find_not_hasKey g k (by simpa using h),
      List.find?_cons_of_pos _ (by simp), Option.none_or]
    rfl

theorem find_set_ne (g : Geo) (k k' : String) (v : GNode) (hne : k' ≠ k) :
    List.find? (fun p => p.1 = k') (List.map (fun p => if p.1 = k then (k, v) else p) g)
      = List.find? (fun p => p.1 = k') g := by
  induction g with
  | nil => simp
  | cons p rest ih =>
    by_cases hp : p.1 = k
    · rw [List.map_cons, if_pos hp, List.find?_cons_of_neg _ (by simp; exact Ne.symm hne),
        List.find?_cons_of_neg _ (by simp [hp]; exact Ne.symm hne)]
      exact ih
    · by_cases hp' : p.1 = k'
      · rw [List.map_cons, if_neg hp, List.find?_cons_of_pos _ (by simpa using hp'),
          List.find?_cons_of_pos _ (by simpa using hp')]
      · rw [List.map_cons, if_neg hp, List.find?_cons_of_neg _ (by simpa using hp'),
          List.find?_cons_of_neg _ (by simpa using hp')]
        exact ih

theorem geoFind_geoSet_ne (g : Geo) (k k' : String) (v : GNode) (hne : k' ≠ k) :
    geoFind (geoSet g k v) k' = geoFind g k' := by
  unfold geoSet
  split
  · rw [geoFind, find_set_ne g k k' v hne]; rfl
  · rw [geoFind, geoFind, List.find?_append,
      List.find?_cons_of_neg _ (by simp; exact Ne.symm hne), List.find?_nil, Option.or_none]

theorem geoGet_geoSet_ne (g : Geo) (k k' : String) (v : GNode) (hne : k' ≠ k) :
    geoGet (geoSet g k v) k' = geoGet g k' := by
  simp [geoGet, geoFind_geoSet_ne g k k' v hne]

/-! ### binarySearch correctness -/

theorem getT_eq_get {α : Type} (arr : List α) (dflt : α) (i : Int) (h0 : 0 ≤ i)
    (h : i.toNat < arr.length) : getT arr dflt i = arr.get ⟨i.toNat, h⟩ := by
  simp [getT, h0, List.getD_eq_getElem?_getD, List.getElem?_eq_getElem h]

theorem mono_of_pairwise {α : Type} (arr : List α) (tr : α → ℚ) (dflt : α)
    (hp : (arr.map tr).Pairwise (· ≤ ·)) :
    ∀ i j : Int, 0 ≤ i → i ≤ j → j < (arr.length : Int) →
      tr (getT arr dflt i) ≤ tr (getT arr dflt j) := by
  intro i j h0 hij hj
  have hi' : i.toNat < arr.length := by omega
  have hj' : j.toNat < arr.length := by omega
  rw [getT_eq_get arr dflt i h0 hi', getT_eq_get arr dflt j (by omega) hj']
  rcases eq_or_lt_of_le hij with rfl | hlt
  · exact le_refl _
  · have hm := List.pairwise_iff_get.mp hp
      ⟨i.toNat, by simpa using hi'⟩ ⟨j.toNat, by simpa using hj'⟩ (by simp; omega)
    simpa [List.get_map] using hm

theorem bsGo_gt {α : Type} (arr : List α) (tr : α → ℚ) (dflt : α) (x : ℚ)
    (m M mid : Int) (fuel : Nat) (h : M < m) :
    bsGo arr tr dflt x m M mid fuel = bsPost arr tr dflt x mid := by
  cases fuel with
  | zero => rfl
  | succ f => simp only [bsGo]; rw [if_neg (by omega)]

theorem bsPost_specA {α : Type} (arr : List α) (tr : α → ℚ) (dflt : α) (x : ℚ)
    (mid : Int) (h0 : 0 ≤ mid) (h1 : mid ≤ (arr.length : Int) - 1)
    (hv : tr (getT arr dflt mid) < x)
    (hR : ∀ j : Int, mid < j → j < (arr.length : Int) → x < tr (getT arr dflt j))
    (hmono : ∀ i j : Int, 0 ≤ i → i ≤ j → j < (arr.length : Int) →
      tr (getT arr dflt i) ≤ tr (getT arr dflt j)) :
    searchOutcome arr tr dflt x (bsPost arr tr dflt x mid) := by
  have hmax : max 0 mid = mid := max_eq_right h0
  have hmin : min mid ((arr.length : Int) - 1) = mid := min_eq_left h1
  have hi1 : tr (getT arr dflt (max 0 (mid - 1))) ≤ tr (getT arr dflt mid) :=
    hmono _ _ (le_max_left _ _) (by omega) (by omega)
  simp only [bsPost]
  rw [hmax, hmin, if_neg (by push_neg; linarith), if_neg (by push_neg; linarith)]
  refine ⟨by omega, by omega, ?_⟩
  by_cases hc : mid + 1 = (arr.length : Int)
  · refine Or.inr ⟨hc, fun j hj0 hjlen => ?_⟩
    exact lt_of_le_of_lt (hmono j mid hj0 (by omega) (by omega)) hv
  · refine Or.inl ⟨by omega, le_of_lt (hR _ (by omega) (by omega)), ?_⟩
    intro j hj0 hjlen hxj
    rcases lt_or_le j (mid + 1) with hj | hj
    · exact absurd hxj (not_le.mpr (lt_of_le_of_lt (hmono j mid hj0 (by omega) (by omega)) hv))
    · exact hmono _ _ (by omega) hj hjlen

theorem bsPost_specB {α : Type} (arr : List α) (tr : α → ℚ) (dflt : α) (x : ℚ)
    (mid : Int) (h0 : 0 ≤ mid) (h1 : mid ≤ (arr.length : Int) - 1)
    (hv : x < tr (getT arr dflt mid))
    (hL : ∀ j : Int, 0 ≤ j → j < mid → tr (getT arr dflt j) < x)
    (hmono : ∀ i j : Int, 0 ≤ i → i ≤ j → j < (arr.length : Int) →
      tr (getT arr dflt i) ≤ tr (getT arr dflt j)) :
    searchOutcome arr tr dflt x (bsPost arr tr dflt x mid) := by
  have hmax : max 0 mid = mid := max_eq_right h0
  have hmin : min mid ((arr.length : Int) - 1) = mid := min_eq_left h1
  simp only [bsPost]
  rw [hmax, hmin]
  by_cases hz : mid = 0
  · subst hz
    have hz1 : max (0 : Int) (0 - 1) = 0 := by norm_num
    rw [hz1, if_pos (by linarith)]
    refine ⟨by omega, by omega, Or.inl ⟨by omega, le_of_lt hv, ?_⟩⟩
    intro j hj0 hjlen _
    exact hmono 0 j le_rfl hj0 hjlen
  · have hm1 : max 0 (mid - 1) = mid - 1 := max_eq_right (by omega)
    rw [hm1, if_neg (by push_neg; linarith [hL (mid - 1) (by omega) (by omega)]),
      if_pos (by linarith)]
    refine ⟨h0, by omega, Or.inl ⟨by omega, le_of_lt hv, ?_⟩⟩
    intro j hj0 hjlen hxj
    rcases lt_or_le j mid with hj | hj
    · exact absurd hxj (not_le.mpr (hL j hj0 hj))
    · exact hmono _ _ h0 hj hjlen

theorem bsGo_spec {α : Type} (arr : List α) (tr : α → ℚ) (dflt : α) (x : ℚ)
    (hmono : ∀ i j : Int, 0 ≤ i → i ≤ j → j < (arr.length : Int) →
      tr (getT arr dflt i) ≤ tr (getT arr dflt j)) :
    ∀ (fuel : Nat) (m M mid : Int), 0 ≤ m → M ≤ (arr.length : Int) - 1 → m ≤ M →
    (M - m).toNat < fuel →
    (∀ j : Int, 0 ≤ j → j < m → tr (getT arr dflt j) < x) →
    (∀ j : Int, M < j → j < (arr.length : Int) → x < tr (getT arr dflt j)) →
    searchOutcome arr tr dflt x (bsGo arr tr dflt x m M mid fuel) := by
  intro fuel
  induction fuel with
  | zero => intro m M mid _ _ _ hfuel _ _; omega
  | succ f ih =>
    intro m M mid hm hM hmM hfuel hregL hregR
    simp only [bsGo]
    rw [if_pos hmM]
    have hb1 : m ≤ m + (M - m + 1) / 2 := by omega
    have hb2 : m + (M - m + 1) / 2 ≤ M := by omega
    by_cases h1 : tr (getT arr dflt (m + (M - m + 1) / 2)) - x = 0
    · rw [if_pos h1]
      have hx : tr (getT arr dflt (m + (M - m + 1) / 2)) = x := by linarith
      refine ⟨by omega, by omega, Or.inl ⟨by omega, le_of_eq hx.symm, ?_⟩⟩
      intro j hj0 hjlen hxj
      rw [hx]; exact hxj
    · rw [if_neg h1]
      by_cases h2 : tr (getT arr dflt (m + (M - m + 1) / 2)) - x < 0
      · rw [if_pos h2]
        have hvx : tr (getT arr dflt (m + (M - m + 1) / 2)) < x := by linarith
        rcases lt_or_le M (m + (M - m + 1) / 2 + 1) with hrec | hrec
        · rw [bsGo_gt arr tr dflt x _ _ _ f hrec]
          exact bsPost_specA arr tr dflt x _ (by omega) (by omega) hvx
            (fun j hj hjlen => hregR j (by omega) hjlen) hmono
        · refine ih _ M _ (by omega) hM (by omega) (by omega) ?_ hregR
          intro j hj0 hj
          exact lt_of_le_of_lt (hmono j _ hj0 (by omega) (by omega)) hvx
      · rw [if_neg h2]
        have hvx : x < tr (getT arr dflt (m + (M - m + 1) / 2)) := by
          rcases lt_trichotomy (tr (getT arr dflt (m + (M - m + 1) / 2))) x with h | h | h
          · exact absurd (by linarith) h2
          · exact absurd (by linarith) h1
          · exact h
        rcases lt_or_le (m + (M - m + 1) / 2 - 1) m with hrec | hrec
        · rw [bsGo_gt arr tr dflt x _ _ _ f hrec]
          exact bsPost_specB arr tr dflt x _ (by omega) (by omega) hvx
            (fun j hj0 hj => hregL j hj0 (by omega)) hmono
        · refine ih m _ _ hm (by omega) (by omega) (by omega) hregL ?_
          intro j hj hjlen
          exact lt_of_lt_of_le hvx (hmono _ j (by omega) (by omega) hjlen)

theorem binarySearch_spec {α : Type} (arr : List α) (tr : α → ℚ) (dflt : α)
    (x : ℚ) (hne : arr ≠ [])
    (hp : (arr.map tr).Pairwise (· ≤ ·)) :
    searchOutcome arr tr dflt x (binarySearch arr x tr dflt) := by
  have hlen : 0 < arr.length := List.length_pos.mpr hne
  unfold binarySearch
  exact bsGo_spec arr tr dflt x (mono_of_pairwise arr tr dflt hp)
    (arr.length + 1) 0 ((arr.length : Int) - 1) 0 le_rfl le_rfl (by omega) (by omega)
    (by omega) (by omega)

/-- Under strictly increasing transformed values, `binarySearch` returns the
unique threshold index: entries before it are `< x`, entries from it on are
`≥ x`. -/
theorem binarySearch_strict {α : Type} (arr : List α) (tr : α → ℚ) (dflt : α)
    (x : ℚ) (hne : arr ≠ [])
    (hp : (arr.map tr).Pairwise (· < ·)) :
    (binarySearch arr x tr dflt).toNat ≤ arr.length ∧
      ∀ (j : Nat) (hj : j < arr.length),
        (j < (binarySearch arr x tr dflt).toNat ↔ tr (arr.get ⟨j, hj⟩) < x) := by
  have hple : (arr.map tr).Pairwise (· ≤ ·) := hp.imp le_of_lt
  have hs := binarySearch_spec arr tr dflt x hne hple
  obtain ⟨h0, h1, hcase⟩ := hs
  have hmono := mono_of_pairwise arr tr dflt hple
  have hstrict : ∀ i j : Int, 0 ≤ i → i < j → j < (arr.length : Int) →
      tr (getT arr dflt i) < tr (getT arr dflt j) := by
    intro i j hi0 hij hj
    have hi' : i.toNat < arr.length := by omega
    have hj' : j.toNat < arr.length := by omega
    rw [getT_eq_get arr dflt i hi0 hi', getT_eq_get arr dflt j (by omega) hj']
    have hm := List.pairwise_iff_get.mp hp
      ⟨i.toNat, by simpa using hi'⟩ ⟨j.toNat, by simpa using hj'⟩ (by simp; omega)
    simpa [List.get_map] using hm
  constructor
  · omega
  · intro j hj
    have hjget : tr (arr.get ⟨j, hj⟩) = tr (getT arr dflt (j : Int)) := by
      rw [getT_eq_get arr dflt (j : Int) (by omega) (by simpa using hj)]
      congr 1
    rw [hjget]
    rcases hcase with ⟨hilen, hix, hmin⟩ | ⟨hieq, hall⟩
    · constructor
      · intro hjlt
        by_contra hge
        push_neg at hge
        have := hmin (j : Int) (by omega) (by omega) hge
        have := hstrict (j : Int) (binarySearch arr x tr dflt) (by omega) (by omega) hilen
        linarith
      · intro hjx
        by_contra hge
        push_neg at hge
        have : x ≤ tr (getT arr dflt (j : Int)) := by
          calc x ≤ tr (getT arr dflt (binarySearch arr x tr dflt)) := hix
          _ ≤ tr (getT arr dflt (j : Int)) :=
            hmono _ _ h0 (by omega) (by omega)
        linarith
    · constructor
      · intro _; exact hall (j : Int) (by omega) (by omega)
      · intro _; omega

end TDia

namespace TDia

/-! ### Selection lemmas -/

theorem maxFold_ge_init (l : List Specimen) :
    ∀ t : ℚ, t ≤ List.foldl (fun t x => if t < x.total then x.total else t) t l := by
  induction l with
  | nil => intro t; exact le_rfl
  | cons s rest ih =>
    intro t
    refine le_trans ?_ (ih (if t < s.total then s.total else t))
    split
    · next h => exact le_of_lt h
    · exact le_rfl

theorem maxFold_le_bound (l : List Specimen) (c : ℚ) (hc : ∀ s ∈ l, s.total ≤ c) :
    ∀ t : ℚ, t ≤ c → List.foldl (fun t x => if t < x.total then x.total else t) t l ≤ c := by
  induction l with
  | nil => intro t ht; exact ht
  | cons s rest ih =>
    intro t ht
    refine ih (fun s hs => hc s (List.mem_cons_of_mem _ hs)) _ ?_
    show (if t < s.total then s.total else t) ≤ c
    split
    · exact hc s (List.mem_cons_self _ _)
    · exact ht

theorem maxFold_ge_mem (l : List Specimen) :
    ∀ (t : ℚ) (s : Specimen), s ∈ l →
      s.total ≤ List.foldl (fun t x => if t < x.total then x.total else t) t l := by
  induction l with
  | nil => intro _ s hs; exact absurd hs (List.not_mem_nil s)
  | cons s' rest ih =>
    intro t s hs
    rcases List.mem_cons.mp hs with rfl | hs'
    · refine le_trans (b := if t < s.total then s.total else t) ?_ (maxFold_ge_init rest _)
      split
      · exact le_rfl
      · next h => exact le_of_not_lt h
    · exact ih _ s hs'

theorem maxFold_attained (l : List Specimen) :
    ∀ t : ℚ, List.foldl (fun t x => if t < x.total then x.total else t) t l = t ∨
      ∃ s ∈ l, List.foldl (fun t x => if t < x.total then x.total else t) t l = s.total := by
  induction l with
  | nil => intro t; exact Or.inl rfl
  | cons s rest ih =>
    intro t
    rcases ih (if t < s.total then s.total else t) with h | ⟨s', hs', h⟩
    · rw [List.foldl_cons, h]
      split
      · exact Or.inr ⟨s, List.mem_cons_self _ _, rfl⟩
      · exact Or.inl rfl
    · exact Or.inr ⟨s', List.mem_cons_of_mem _ hs', by rw [List.foldl_cons, h]⟩

theorem selectGo_eq_filter (rand : Nat → ℚ) (m : ℚ) :
    ∀ (l : List Specimen) (i : Nat),
      selectGo rand m i l =
        List.map Prod.snd
          (List.filter (fun p => p.2.total < rand p.1 * m) (List.enumFrom i l)) := by
  intro l
  induction l with
  | nil => intro i; rfl
  | cons s rest ih =>
    intro i
    rw [selectGo, List.enumFrom_cons]
    by_cases h : s.total < rand i * m
    · rw [if_pos h, List.filter_cons_of_pos (by simpa using h), List.map_cons, ih (i + 1)]
    · rw [if_neg h, List.filter_cons_of_neg (by simpa using h), ih (i + 1)]

theorem mem_selectGo (rand : Nat → ℚ) (m : ℚ) :
    ∀ (l : List Specimen) (i : Nat) (s : Specimen),
      s ∈ selectGo rand m i l → ∃ j, s.total < rand j * m := by
  intro l
  induction l with
  | nil => intro i s hs; exact absurd hs (List.not_mem_nil s)
  | cons s' rest ih =>
    intro i s hs
    rw [selectGo] at hs
    split at hs
    · rcases List.mem_cons.mp hs with rfl | hs'
      · next h => exact ⟨i, h⟩
      · exact ih (i + 1) s hs'
    · exact ih (i + 1) s hs

theorem selectGo_eq_nil (rand : Nat → ℚ) (m : ℚ) :
    ∀ (l : List Specimen) (i : Nat),
      (∀ s ∈ l, ∀ j, ¬ s.total < rand j * m) → selectGo rand m i l = [] := by
  intro l
  induction l with
  | nil => intro i _; rfl
  | cons s rest ih =>
    intro i h
    rw [selectGo, if_neg (h s (List.mem_cons_self _ _) i)]
    exact ih (i + 1) (fun s hs j => h s (List.mem_cons_of_mem _ hs) j)

/-! ### Claims -/

/-- **C1**: `cost(alpha, beta, gamma, prefered_aspect_ratio)` returns exactly
`branches_factor = num_branches^2`, `intersection_factor = intersections()`,
and with `ar = canvasWidth/canvasHeight`,
`ratio_gap = exp(max(ar, pref)/min(ar, pref) - 1)`,
`ar_factor = ratio_gap - 1` and
`total = alpha*branches_factor + beta*intersection_factor + ratio_gap^gamma - 1`;
moreover, after `introduceBreaks(breaks)`, `num_branches` equals the number of
keys (entries) of the bend map. -/
theorem claim_c1_cost_formula :
    (∀ (nb is : ℕ) (w h alpha beta gamma pref : ℝ),
        cost nb is w h alpha beta gamma pref =
          { branches_factor := (nb : ℝ) ^ (2 : ℕ),
            intersection_factor := (is : ℝ),
            ar_factor := Real.exp (max (w / h) pref / min (w / h) pref - 1) - 1,
            total := alpha * (nb : ℝ) ^ (2 : ℕ) + beta * (is : ℝ) +
              Real.exp (max (w / h) pref / min (w / h) pref - 1) ^ gamma - 1 }) ∧
      ∀ (st : CostState) (breaks : List (String × ℚ)) (bnames : List String),
        (introduceBreaks st breaks bnames).num_branches = breaks.length :=
  ⟨fun _ _ _ _ _ _ _ _ => rfl, fun _ _ _ => rfl⟩

/-- **C5**: `performSelection` retains exactly the specimens whose
`cost.total` is strictly below `d_i * maxCost` (one draw per specimen, in
order), where `maxCost` is the largest total with floor 0; in particular, for
totals `[1, 5, 10]` and draws `[0.3, 0.4, 0.99]` exactly the specimen with
total `1` survives. -/
theorem claim_c5_performSelection :
    (∀ (pop : List Specimen) (rand : Nat → ℚ),
        performSelection pop rand =
          List.map Prod.snd
            (List.filter (fun p => p.2.total < rand p.1 * maxCost pop) pop.enum)) ∧
      (∀ pop : List Specimen,
          0 ≤ maxCost pop ∧ (∀ s ∈ pop, s.total ≤ maxCost pop) ∧
            (maxCost pop = 0 ∨ ∃ s ∈ pop, maxCost pop = s.total)) ∧
      (performSelection [⟨0, 1⟩, ⟨1, 5⟩, ⟨2, 10⟩]
          (fun i => List.getD [3/10, 2/5, 99/100] i 0) = [⟨0, 1⟩] ∧
        maxCost [⟨0, 1⟩, ⟨1, 5⟩, ⟨2, 10⟩] = 10 ∧
        (1 : ℚ) < (3/10) * 10 ∧ ((2/5) * 10 : ℚ) ≤ 5 ∧
        ((99/100) * 10 : ℚ) ≤ 10) := by
  refine ⟨?_, ?_, ?_, ?_, by norm_num, by norm_num, by norm_num⟩
  · intro pop rand
    exact selectGo_eq_filter rand (maxCost pop) pop 0
  · intro pop
    refine ⟨maxFold_ge_init pop 0, fun s hs => maxFold_ge_mem pop 0 s hs, ?_⟩
    rcases maxFold_attained pop 0 with h | ⟨s, hs, h⟩
    · exact Or.inl h
    · exact Or.inr ⟨s, hs, h⟩
  · with_unfolding_all rfl
  · with_unfolding_all rfl

/-- **C7** (code bug): the branch-removal event computes the key array and a
random key but `delete branches[rand_branch]` deletes a property of the
temporary array, so the child bend map is returned with no key removed; at
`breaks = {A: 0.5}` with the removal event firing on key `A`, the map is
unchanged instead of becoming empty as the spec prescribes. -/
theorem claim_c7_removal_noop :
    (∀ (breaks : List (String × ℚ)) (i : Nat), removeBranchEvent breaks i = breaks) ∧
      removeBranchEvent [("A", 1/2)] 0 = [("A", 1/2)] ∧
      jsDeleteKey [("A", 1/2)] "A" = [] ∧
      (removeBranchEvent [("A", 1/2)] 0).length = 1 ∧
      (jsDeleteKey [("A", 1/2)] "A").length = 0 :=
  ⟨fun _ _ => rfl, rfl, by with_unfolding_all rfl, rfl, by with_unfolding_all rfl⟩

/-- **C8**: `Math.min(0.1, Math.max(0.9, x))` equals `0.1` for every `x`, so
every break fraction that undergoes the breeding-step mutation perturbation is
set to exactly `0.1` regardless of its previous value and of the draw. -/
theorem claim_c8_degenerate_clamp :
    (∀ x : ℚ, mutateClamp x = 1/10) ∧ ∀ v r : ℚ, mutateFraction v r = 1/10 := by
  have h : ∀ x : ℚ, mutateClamp x = 1/10 := by
    intro x
    unfold mutateClamp
    refine min_eq_left (le_trans (by norm_num) (le_max_left (9/10) x))
  exact ⟨h, fun v r => h _⟩

/-- **C9** (implicit): with draws in `[0,1)` and nonnegative cached totals,
no specimen surviving `performSelection` has total equal to the population
maximum (the fold maximum with floor 0, which bounds every total), and a
population whose totals are all equal — in particular all 0 — is always left
empty. -/
theorem claim_c9_selection_collapse (pop : List Specimen) (rand : Nat → ℚ)
    (hrand : ∀ i, 0 ≤ rand i ∧ rand i < 1)
    (hpos : ∀ s ∈ pop, 0 ≤ s.total) :
    (∀ s ∈ pop, s.total ≤ maxCost pop) ∧
      (∀ s ∈ performSelection pop rand, s.total ≠ maxCost pop) ∧
      (∀ c : ℚ, (∀ s ∈ pop, s.total = c) → performSelection pop rand = []) := by
  have h0 : 0 ≤ maxCost pop := maxFold_ge_init pop 0
  refine ⟨fun s hs => maxFold_ge_mem pop 0 s hs, ?_, ?_⟩
  · intro s hs
    obtain ⟨j, hj⟩ := mem_selectGo rand (maxCost pop) pop 0 s hs
    have hle : rand j * maxCost pop ≤ maxCost pop :=
      mul_le_of_le_one_left h0 (le_of_lt (hrand j).2)
    exact ne_of_lt (lt_of_lt_of_le hj hle)
  · intro c hc
    apply selectGo_eq_nil
    intro s hsmem j
    have hc0 : 0 ≤ c := (hc s hsmem) ▸ hpos s hsmem
    have hcle : maxCost pop ≤ c :=
      maxFold_le_bound pop c (fun s' hs' => le_of_eq (hc s' hs')) 0 hc0
    have hle : rand j * maxCost pop ≤ maxCost pop :=
      mul_le_of_le_one_left h0 (le_of_lt (hrand j).2)
    rw [hc s hsmem]
    push_neg
    exact le_trans hle hcle

/-- Witness for C9: a population with all totals 0 and constant draw 1/2 is
emptied by selection. -/
theorem claim_c9_witness :
    (∀ i : Nat, 0 ≤ (fun _ : Nat => (1:ℚ)/2) i ∧ (fun _ : Nat => (1:ℚ)/2) i < 1) ∧
      performSelection [⟨0, 0⟩, ⟨1, 0⟩, ⟨2, 0⟩] (fun _ => 1/2) = [] := by
  have hr : ∀ i : Nat, 0 ≤ (fun _ : Nat => (1:ℚ)/2) i ∧ (fun _ : Nat => (1:ℚ)/2) i < 1 :=
    fun _ => ⟨by norm_num, by norm_num⟩
  have hp : ∀ s ∈ ([⟨0, 0⟩, ⟨1, 0⟩, ⟨2, 0⟩] : List Specimen), 0 ≤ s.total := by decide
  refine ⟨hr, ?_⟩
  exact (claim_c9_selection_collapse [⟨0, 0⟩, ⟨1, 0⟩, ⟨2, 0⟩] (fun _ => 1/2) hr hp).2.2 0
    (by decide)

/-- **C10** (implicit): for every non-empty array sorted in non-decreasing
order of `trans` and every value `x`, `binarySearch(arr, x, trans)` returns an
index `i` with `0 ≤ i ≤ arr.length` such that either `i < arr.length` and
`trans(arr[i])` is the smallest transformed value `≥ x`, or `i = arr.length`
and every transformed value is `< x`. -/
theorem claim_c10_binarySearch {α : Type} (arr : List α) (tr : α → ℚ) (dflt : α)
    (x : ℚ) (hne : arr ≠ []) (hsorted : (arr.map tr).Pairwise (· ≤ ·)) :
    0 ≤ binarySearch arr x tr dflt ∧
      binarySearch arr x tr dflt ≤ (arr.length : Int) ∧
      ((∃ hlt : (binarySearch arr x tr dflt).toNat < arr.length,
          x ≤ tr (arr.get ⟨(binarySearch arr x tr dflt).toNat, hlt⟩) ∧
            ∀ (j : Nat) (hj : j < arr.length), x ≤ tr (arr.get ⟨j, hj⟩) →
              tr (arr.get ⟨(binarySearch arr x tr dflt).toNat, hlt⟩) ≤
                tr (arr.get ⟨j, hj⟩)) ∨
        (binarySearch arr x tr dflt = (arr.length : Int) ∧
          ∀ (j : Nat) (hj : j < arr.length), tr (arr.get ⟨j, hj⟩) < x)) := by
  obtain ⟨h0, h1, hcase⟩ := binarySearch_spec arr tr dflt x hne hsorted
  have hconv : ∀ (j : Nat) (hj : j < arr.length),
      tr (getT arr dflt (j : Int)) = tr (arr.get ⟨j, hj⟩) := by
    intro j hj
    rw [getT_eq_get arr dflt (j : Int) (by omega) (by simpa using hj)]
    congr 1
  refine ⟨h0, h1, ?_⟩
  rcases hcase with ⟨hilen, hix, hmin⟩ | ⟨hieq, hall⟩
  · have hlt : (binarySearch arr x tr dflt).toNat < arr.length := by omega
    refine Or.inl ⟨hlt, ?_, ?_⟩
    · rw [← getT_eq_get arr dflt _ h0 hlt]
      exact hix
    · intro j hj hxj
      rw [← getT_eq_get arr dflt _ h0 hlt, ← hconv j hj]
      exact hmin (j : Int) (by omega) (by omega) (by rw [hconv j hj]; exact hxj)
  · refine Or.inr ⟨hieq, fun j hj => ?_⟩
    rw [← hconv j hj]
    exact hall (j : Int) (by omega) (by omega)

/-- Witness for C10 at `arr = [0,1,2,3,4]`, `x = 1/2` (the example of the
source's doc comment, which returns 1). -/
theorem claim_c10_witness :
    (([(0:ℚ), 1, 2, 3, 4] : List ℚ) ≠ [] ∧
        (([(0:ℚ), 1, 2, 3, 4].map (fun q => q)).Pairwise (· ≤ ·))) ∧
      binarySearch [(0:ℚ), 1, 2, 3, 4] (1/2) (fun q => q) 0 = 1 ∧
      0 ≤ binarySearch [(0:ℚ), 1, 2, 3, 4] (1/2) (fun q => q) 0 ∧
      binarySearch [(0:ℚ), 1, 2, 3, 4] (1/2) (fun q => q) 0 ≤
        (([(0:ℚ), 1, 2, 3, 4] : List ℚ).length : Int) :=
  ⟨⟨by decide, by decide⟩, by with_unfolding_all rfl,
    (claim_c10_binarySearch [(0:ℚ), 1, 2, 3, 4] (fun q => q) 0 (1/2)
      (by decide) (by decide)).1,
    (claim_c10_binarySearch [(0:ℚ), 1, 2, 3, 4] (fun q => q) 0 (1/2)
      (by decide) (by decide)).2.1⟩

end TDia

namespace TDia

/-- **C3** (corrected: the delta is applied with the sign of the parent's
orientation): for a node placed against an already-placed parent, the updated
axis is `x` when the parent points RIGHT/LEFT and `y` otherwise; the
magnitude of the delta is `branch_at` when provided, else
`(seq+1)/siblingCount * parentLength`; its sign is `+1` for a RIGHT/DOWN
parent and `-1` for a LEFT/UP parent; the child's pointing is the parent's
rotated by `+1 (mod 4)` for `direction == 'right'` and `-1 (mod 4)` for
`'left'`; and `setUpCoordinates` places every node with exactly these step
functions. -/
theorem claim_c3_amended :
    (∀ (d : DNode) (pc : Ctx), pc.pointing = POINTING_RIGHT ∨ pc.pointing = POINTING_LEFT →
        placeNode d pc =
          ⟨pc.coordinates.x +
              (if pc.pointing = POINTING_RIGHT then 1 else -1) * branchDelta d pc,
            pc.coordinates.y⟩) ∧
      (∀ (d : DNode) (pc : Ctx), pc.pointing = POINTING_UP ∨ pc.pointing = POINTING_DOWN →
        placeNode d pc =
          ⟨pc.coordinates.x,
            pc.coordinates.y +
              (if pc.pointing = POINTING_DOWN then 1 else -1) * branchDelta d pc⟩) ∧
      (∀ (d : DNode) (pc : Ctx), d.branch_at = none →
        branchDelta d pc = (d.seq + 1) / pc.childCount * pc.length) ∧
      (∀ (d : DNode) (pc : Ctx) (b : ℚ), d.branch_at = some b → branchDelta d pc = b) ∧
      (∀ p : Int, childPointing p "right" = (p + 1) % 4) ∧
      (∀ p : Int, childPointing p "left" = (p + 3) % 4) ∧
      (∀ (l : List DNode) (d : DNode) (pc : Ctx) (pointing : Int) (fuel : Nat),
        List.head? (setUpCoordinates l d pc pointing (fuel + 1)) =
          some (d.name,
            { name := d.name, coordinates := placeNode d pc, pointing := pointing,
              length := d.length, parent := d.parent,
              children := List.map (fun c : DNode => c.name) (childrenOf l d.name) ++
                [d.name ++ "_end"],
              hidden := d.hidden, branch_at := d.branch_at })) := by
  refine ⟨?_, ?_, ?_, ?_, ?_, ?_, ?_⟩
  · intro d pc h
    obtain ⟨⟨cx, cy⟩, pp, plen, pcc⟩ := pc
    simp only [Ctx.pointing] at h
    rcases h with h | h <;> subst h <;>
      simp [placeNode, applyDelta, getCoordToUpdate, getDirectionToUpdate,
        POINTING_RIGHT, POINTING_LEFT, POINTING_DOWN, Coords.mk.injEq]
  · intro d pc h
    obtain ⟨⟨cx, cy⟩, pp, plen, pcc⟩ := pc
    simp only [Ctx.pointing] at h
    rcases h with h | h <;> subst h <;>
      simp [placeNode, applyDelta, getCoordToUpdate, getDirectionToUpdate,
        POINTING_RIGHT, POINTING_LEFT, POINTING_UP, POINTING_DOWN, Coords.mk.injEq]
  · intro d pc h
    simp [branchDelta, h]
  · intro d pc b h
    simp [branchDelta, h]
  · intro p
    unfold childPointing
    rw [if_pos rfl]
    omega
  · intro p
    unfold childPointing
    rw [if_neg (by decide)]
    omega
  · intro l d pc pointing fuel
    rfl

/-- Counterexample to C3 as stated: in `exC3` the node `B` points LEFT and its
child `C` carries `branch_at = 5`, yet `C`'s x-coordinate is `B.x - 5 = 5`,
not `B.x + 5 = 15` — the signed delta along the axis is `-branch_at`, not
`branch_at`. -/
theorem claim_c3_counterexample :
    (geoGet (diagramGeometry exC3) "B").pointing = POINTING_LEFT ∧
      (geoGet (diagramGeometry exC3) "B").coordinates = ⟨10, 10⟩ ∧
      (geoGet (diagramGeometry exC3) "C").branch_at = some 5 ∧
      (geoGet (diagramGeometry exC3) "C").coordinates = ⟨5, 10⟩ ∧
      (geoGet (diagramGeometry exC3) "C").coordinates.x <
        (geoGet (diagramGeometry exC3) "B").coordinates.x + 5 :=
  ⟨by with_unfolding_all rfl, by with_unfolding_all rfl, by with_unfolding_all rfl,
    by with_unfolding_all rfl, by
      have h1 : (geoGet (diagramGeometry exC3) "C").coordinates.x = 5 := by
        with_unfolding_all rfl
      have h2 : (geoGet (diagramGeometry exC3) "B").coordinates.x = 10 := by
        with_unfolding_all rfl
      rw [h1, h2]; norm_num⟩

/-- Witness for C3 (amended) on a LEFT-pointing parent context with
`branch_at = 5`: the child lands at `x - 5`. -/
theorem claim_c3_witness :
    ((⟨⟨2, 3⟩, POINTING_LEFT, 10, 1⟩ : Ctx).pointing = POINTING_RIGHT ∨
        (⟨⟨2, 3⟩, POINTING_LEFT, 10, 1⟩ : Ctx).pointing = POINTING_LEFT) ∧
      placeNode
        { name := "C", parent := "B", direction := "right", length := 7,
          branch_at := some 5, seq := 0, hidden := false }
        ⟨⟨2, 3⟩, POINTING_LEFT, 10, 1⟩ = ⟨-3, 3⟩ := by
  refine ⟨Or.inr rfl, ?_⟩
  rw [claim_c3_amended.1
    { name := "C", parent := "B", direction := "right", length := 7,
      branch_at := some 5, seq := 0, hidden := false }
    ⟨⟨2, 3⟩, POINTING_LEFT, 10, 1⟩ (Or.inr rfl)]
  with_unfolding_all rfl

/-- **C4** (corrected: the two classes are swapped relative to the claim): the
break node created by `introduceBreaks` points RIGHT when the original node is
vertical-class (UP/DOWN) and UP when the original node is horizontal-class
(RIGHT/LEFT) — a bend turns perpendicular to the branch it splits. -/
theorem claim_c4_amended (g : Geo) (n : String) (f : ℚ) (bname : String) :
    ((geoGet g n).pointing = POINTING_UP ∨ (geoGet g n).pointing = POINTING_DOWN →
        ∃ b : GNode, geoFind (introduceBreak g n f bname) bname = some b ∧
          b.pointing = POINTING_RIGHT) ∧
      ((geoGet g n).pointing = POINTING_RIGHT ∨ (geoGet g n).pointing = POINTING_LEFT →
        ∃ b : GNode, geoFind (introduceBreak g n f bname) bname = some b ∧
          b.pointing = POINTING_UP) := by
  constructor
  · intro h
    simp only [introduceBreak]
    refine ⟨_, geoFind_geoSet_self _ _ _, ?_⟩
    rcases h with h | h <;> rw [h] <;>
      norm_num [POINTING_UP, POINTING_DOWN, POINTING_RIGHT, VERTICAL]
  · intro h
    simp only [introduceBreak]
    refine ⟨_, geoFind_geoSet_self _ _ _, ?_⟩
    rcases h with h | h <;> rw [h] <;>
      norm_num [POINTING_UP, POINTING_LEFT, POINTING_RIGHT, VERTICAL]

/-- Counterexample to C4 as stated: in `gH` the node `h` is horizontal-class
(points RIGHT), yet its break node points UP, not RIGHT as the claim says. -/
theorem claim_c4_counterexample :
    (geoGet gH "h").pointing = POINTING_RIGHT ∧
      (geoGet (introduceBreak gH "h" (1/2) "b1") "b1").pointing = POINTING_UP ∧
      POINTING_UP < POINTING_RIGHT :=
  ⟨by with_unfolding_all rfl, by with_unfolding_all rfl, by decide⟩

/-- Witness for C4 (amended) on the vertical-class node `v` of `gV`: its break
node points RIGHT. -/
theorem claim_c4_witness :
    ((geoGet gV "v").pointing = POINTING_UP ∨ (geoGet gV "v").pointing = POINTING_DOWN) ∧
      ∃ b : GNode, geoFind (introduceBreak gV "v" (1/2) "b1") "b1" = some b ∧
        b.pointing = POINTING_RIGHT :=
  ⟨Or.inl (by with_unfolding_all rfl),
    (claim_c4_amended gV "v" (1/2) "b1").1 (Or.inl (by with_unfolding_all rfl))⟩

/-- **C6** (corrected: full observable invariance fails): applying
`introduceBreaks({})` resets `num_branches` to 0 and its per-entry mutation
loop leaves the captured geometry untouched; the subsequent
`updateFromGeometry` rebuild, however, re-derives each node's `direction`
lossily and can change orientations, so the resulting geometry map is not
always observably unchanged. -/
theorem claim_c6_amended :
    ∀ (st : CostState) (bnames : List String),
      (introduceBreaks st [] bnames).num_branches = 0 ∧
        breaksMutate st.geometry (List.zip ([] : List (String × ℚ)) bnames) =
          st.geometry :=
  fun _ _ => ⟨rfl, rfl⟩

/-- Counterexample to C6 as stated: on `exC6` (whose node `B` is the
left-direction child of the UP-pointing node `A`), `introduceBreaks({})`
flips `B`'s orientation from LEFT to RIGHT, so the geometry map is observably
changed. -/
theorem claim_c6_counterexample :
    (geoGet (initCost exC6).geometry "B").pointing = POINTING_LEFT ∧
      (geoGet (introduceBreaks (initCost exC6) [] []).geometry "B").pointing =
        POINTING_RIGHT ∧
      POINTING_RIGHT < POINTING_LEFT :=
  ⟨by with_unfolding_all rfl, by with_unfolding_all rfl, by decide⟩

end TDia

namespace TDia

/-! ### introduceBreaks per-entry lemmas -/

theorem foldl_parentUpd_notmem (bname : String) :
    ∀ (ks : List String) (g0 : Geo) (c : String), c ∉ ks →
      geoFind (List.foldl (fun gg k => geoSet gg k { geoGet gg k with parent := bname }) g0 ks) c
        = geoFind g0 c := by
  intro ks
  induction ks with
  | nil => intro g0 c _; rfl
  | cons k rest ih =>
    intro g0 c hc
    rw [List.foldl_cons, ih _ c (fun h => hc (List.mem_cons_of_mem _ h)),
      geoFind_geoSet_ne _ _ _ _ (fun h => hc (by rw [h]; exact List.mem_cons_self _ _))]

theorem foldl_parentUpd_mem (bname : String) :
    ∀ (ks : List String) (g0 : Geo) (c : String), ks.Nodup → c ∈ ks →
      geoFind (List.foldl (fun gg k => geoSet gg k { geoGet gg k with parent := bname }) g0 ks) c
        = some { geoGet g0 c with parent := bname } := by
  intro ks
  induction ks with
  | nil => intro g0 c _ hc; exact absurd hc (List.not_mem_nil c)
  | cons k rest ih =>
    intro g0 c hnd hc
    have hk_rest : k ∉ rest := (List.nodup_cons.mp hnd).1
    have hrest : rest.Nodup := (List.nodup_cons.mp hnd).2
    rw [List.foldl_cons]
    rcases List.mem_cons.mp hc with rfl | hc'
    · rw [foldl_parentUpd_notmem bname rest _ c hk_rest, geoFind_geoSet_self]
    · have hck : c ≠ k := fun h => hk_rest (h ▸ hc')
      rw [ih _ c hrest hc', geoGet_geoSet_ne _ _ _ _ hck]

/-- **C2** (amended: "exactly those children at Manhattan distance `≥ L*f`"
holds under strictly increasing child distances; with ties at exactly `L*f`
the binary search may keep an earlier tied child on the original node): for a
bend-map entry `(n, f)` applied to a node of length `L` with strictly
increasing child distances whose last child `e` (the synthetic segment end)
sits at distance `L`: `n`'s length becomes `L*f`; a break node of length
`L*(1-f)` is stored under the fresh name, with parent `n`, placed at `n`'s
coordinate offset by `L*f` along `n`'s orientation axis; its children are
exactly the original children at distance `≥ L*f` other than `e`, all
re-parented to it; and `e` stays a child of `n`. -/
theorem claim_c2_amended (g : Geo) (n bname : String) (f : ℚ) (nd : GNode) (e : String)
    (hfind : geoFind g n = some nd)
    (hL : 0 < nd.length) (hf0 : 0 < f) (hf1 : f < 1)
    (hp : nd.pointing = 0 ∨ nd.pointing = 1 ∨ nd.pointing = 2 ∨ nd.pointing = 3)
    (hstrict : (List.map (childDist g nd) nd.children).Pairwise (· < ·))
    (hlast : nd.children.getLast? = some e)
    (hend : childDist g nd e = nd.length)
    (hn : n ∉ nd.children) (hb1 : bname ∉ nd.children) (hb2 : bname ≠ n) :
    ∃ nd' bn : GNode,
      geoFind (introduceBreak g n f bname) n = some nd' ∧
      geoFind (introduceBreak g n f bname) bname = some bn ∧
      nd'.length = nd.length * f ∧
      bn.length = nd.length * (1 - f) ∧
      bn.coordinates = applyDelta nd.coordinates nd.pointing (nd.length * f) ∧
      bn.parent = n ∧
      nd'.children =
        nd.children.take
          (binarySearch (List.map (childDist g nd) nd.children) (nd.length * f)
            (fun q => q) 0).toNat ++ [bname, e] ∧
      e ∈ nd'.children ∧
      (∀ c : String, c ∈ bn.children ↔
        c ∈ nd.children ∧ nd.length * f ≤ childDist g nd c ∧ c ≠ e) ∧
      (∀ c ∈ bn.children,
        geoFind (introduceBreak g n f bname) c = some { geoGet g c with parent := bname }) := by
  have hget : geoGet g n = nd := geoGet_of_find hfind
  have hcs_ne : nd.children ≠ [] := by
    intro h; rw [h] at hlast; simp at hlast
  have hlen_pos : 0 < nd.children.length := List.length_pos.mpr hcs_ne
  have hmapne : List.map (childDist g nd) nd.children ≠ [] := by simpa using hcs_ne
  have hlf : nd.length * f < nd.length := mul_lt_of_lt_one_right hL hf1
  obtain ⟨hidxle, hchar⟩ := binarySearch_strict (List.map (childDist g nd) nd.children)
    (fun q => q) 0 (nd.length * f) hmapne (by rw [List.map_id']; exact hstrict)
  set IDX := (binarySearch (List.map (childDist g nd) nd.children) (nd.length * f)
    (fun q => q) 0).toNat with hIDX
  have hchar' : ∀ (j : Nat) (hj : j < nd.children.length),
      (j < IDX ↔ childDist g nd (nd.children.get ⟨j, hj⟩) < nd.length * f) := by
    intro j hj
    have h := hchar j (by simpa using hj)
    simpa [List.get_map] using h
  have heget : ∀ (hlt : nd.children.length - 1 < nd.children.length),
      nd.children.get ⟨nd.children.length - 1, hlt⟩ = e := by
    intro hlt
    have h1 := List.getLast?_eq_getLast nd.children hcs_ne
    rw [hlast] at h1
    rw [List.getLast_eq_getElem] at h1
    exact (Option.some.inj h1).symm
  have hIDXlt : IDX < nd.children.length := by
    by_contra hge
    push_neg at hge
    have h1 := (hchar' (nd.children.length - 1) (by omega)).mp (by omega)
    rw [heget (by omega), hend] at h1
    linarith
  have hdlast : (nd.children.drop IDX).getLast? = some e := by
    rw [List.getLast?_eq_getElem?, List.getElem?_drop, List.length_drop]
    have hidxeq : IDX + (nd.children.length - IDX - 1) = nd.children.length - 1 := by omega
    rw [hidxeq, List.getElem?_eq_getElem (by omega)]
    have h2 := heget (by omega)
    rw [List.get_eq_getElem] at h2
    rw [h2]
  have hdropne : nd.children.drop IDX ≠ [] := by
    intro h
    have hcongr := congrArg List.length h
    rw [List.length_drop] at hcongr
    simp at hcongr
    omega
  have hsplit : (nd.children.drop IDX).dropLast ++ [e] = nd.children.drop IDX := by
    have h := List.dropLast_append_getLast hdropne
    have h2 := List.getLast?_eq_getLast _ hdropne
    rw [hdlast] at h2
    rw [← Option.some.inj h2] at h
    exact h
  have hnodupmap : (List.map (childDist g nd) nd.children).Nodup :=
    List.Pairwise.imp (fun h => ne_of_lt h) hstrict
  have hnodup : nd.children.Nodup := List.Nodup.of_map _ hnodupmap
  have hmemdrop : ∀ c : String, c ∈ nd.children.drop IDX ↔
      (c ∈ nd.children ∧ nd.length * f ≤ childDist g nd c) := by
    intro c
    constructor
    · intro hc
      obtain ⟨i, hi⟩ := List.mem_iff_getElem?.mp hc
      rw [List.getElem?_drop] at hi
      obtain ⟨hilt, hieq⟩ := List.getElem?_eq_some.mp hi
      refine ⟨hieq ▸ List.getElem_mem hilt, ?_⟩
      have hch := hchar' (IDX + i) hilt
      rw [List.get_eq_getElem, hieq] at hch
      by_contra hlt
      push_neg at hlt
      have := hch.mpr hlt
      omega
    · rintro ⟨hcmem, hcge⟩
      obtain ⟨j, hj⟩ := List.mem_iff_getElem?.mp hcmem
      obtain ⟨hjlt, hjeq⟩ := List.getElem?_eq_some.mp hj
      have hjge : IDX ≤ j := by
        by_contra hlt
        push_neg at hlt
        have hch := (hchar' j hjlt).mp hlt
        rw [List.get_eq_getElem, hjeq] at hch
        linarith
      rw [List.mem_iff_getElem?]
      refine ⟨j - IDX, ?_⟩
      rw [List.getElem?_drop]
      have hplus : IDX + (j - IDX) = j := by omega
      rw [hplus, List.getElem?_eq_getElem hjlt, hjeq]
  have hsubset_moved : ∀ c ∈ (nd.children.drop IDX).dropLast, c ∈ nd.children :=
    fun c hc => ((List.dropLast_sublist _).trans (List.drop_sublist _ _)).subset hc
  have hnodup_moved : ((nd.children.drop IDX).dropLast).Nodup :=
    ((List.dropLast_sublist _).trans (List.drop_sublist _ _)).nodup hnodup
  simp only [introduceBreak, hget]
  rw [← hIDX, hdlast]
  refine ⟨{ nd with
      children := List.take IDX nd.children ++ [bname, e],
      length := nd.length * f },
    { name := bname,
      coordinates := ⟨nd.coordinates.x + ((nd.pointing % 2 : Int) : ℚ) *
          (if nd.pointing = POINTING_RIGHT then 1 else -1) * (nd.length * f),
        nd.coordinates.y + (((nd.pointing + 1) % 2 : Int) : ℚ) *
          (if nd.pointing = POINTING_DOWN then 1 else -1) * (nd.length * f)⟩,
      pointing := if nd.pointing % 2 = VERTICAL then POINTING_RIGHT else POINTING_UP,
      length := nd.length - nd.length * f,
      parent := n,
      children := (List.drop IDX nd.children).dropLast,
      hidden := true,
      branch_at := some (nd.length * f) },
    ?hfn, ?hfb, ?hl1, ?hl2, ?hco, ?hpa, ?hch, ?hme, ?hiff, ?hupd⟩
  case hfn =>
    rw [geoFind_geoSet_ne _ _ _ _ (Ne.symm hb2),
      foldl_parentUpd_notmem bname _ _ n (fun hmem => hn (hsubset_moved n hmem)),
      geoFind_geoSet_self]
  case hfb => exact geoFind_geoSet_self _ _ _
  case hl1 => rfl
  case hl2 => ring
  case hco =>
    rcases hp with h | h | h | h <;> rw [h] <;>
      simp [applyDelta, getCoordToUpdate, getDirectionToUpdate, POINTING_UP,
        POINTING_RIGHT, POINTING_DOWN, POINTING_LEFT, Coords.mk.injEq]
  case hpa => rfl
  case hch => rfl
  case hme => simp
  case hiff =>
    intro c
    show c ∈ (nd.children.drop IDX).dropLast ↔ _
    constructor
    · intro hc
      have hcdrop : c ∈ nd.children.drop IDX := by
        rw [← hsplit]; exact List.mem_append_left _ hc
      have hne_e : c ≠ e := by
        intro hceq
        subst hceq
        have hnd2 : ((nd.children.drop IDX).dropLast ++ [c]).Nodup := by
          rw [hsplit]; exact (List.drop_sublist _ _).nodup hnodup
        exact (List.nodup_append.mp hnd2).2.2 hc (by simp)
      obtain ⟨h1, h2⟩ := (hmemdrop c).mp hcdrop
      exact ⟨h1, h2, hne_e⟩
    · rintro ⟨hcmem, hcge, hcne⟩
      have hcdrop : c ∈ nd.children.drop IDX := (hmemdrop c).mpr ⟨hcmem, hcge⟩
      rw [← hsplit] at hcdrop
      rcases List.mem_append.mp hcdrop with h | h
      · exact h
      · simp at h; exact absurd h hcne
  case hupd =>
    intro c hc
    have hcbn : c ≠ bname := fun h => hb1 (h ▸ hsubset_moved c hc)
    have hcn : c ≠ n := fun h => hn (h ▸ hsubset_moved c hc)
    rw [geoFind_geoSet_ne _ _ _ _ hcbn,
      foldl_parentUpd_mem bname _ _ c hnodup_moved hc,
      geoGet_geoSet_ne _ _ _ _ hcn]

/-- Counterexample to C2 as stated: in `gTie` both children `A` and `B` of
the length-10 node `n` sit at Manhattan distance exactly `5 = L*f`, yet after
`introduceBreaks({n: 0.5})` the tied child `A` stays a child of `n` while
only `B` moves to the break node — so the moved set is not "exactly the
children at distance `≥ L*f`". -/
theorem claim_c2_counterexample :
    childDist gTie (geoGet gTie "n") "A" = 5 ∧
      (geoGet gTie "n").length * (1/2 : ℚ) = 5 ∧
      (geoGet (introduceBreak gTie "n" (1/2) "b1") "n").children = ["A", "b1", "n_end"] ∧
      (geoGet (introduceBreak gTie "n" (1/2) "b1") "b1").children = ["B"] ∧
      (geoGet (introduceBreak gTie "n" (1/2) "b1") "A").parent = "n" :=
  ⟨by with_unfolding_all rfl, by with_unfolding_all rfl, by with_unfolding_all rfl,
    by with_unfolding_all rfl, by with_unfolding_all rfl⟩

/-- Witness for C2 (amended) on `gW` (child distances 3, 7, 10 and
`f = 1/2`, so the split lands between `A` and `B`). -/
theorem claim_c2_witness :
    ((0:ℚ) < ndW.length ∧ (0:ℚ) < 1/2 ∧ (1/2:ℚ) < 1 ∧
        geoFind gW "n" = some ndW) ∧
      (∃ nd' bn : GNode,
        geoFind (introduceBreak gW "n" (1/2) "b1") "n" = some nd' ∧
        geoFind (introduceBreak gW "n" (1/2) "b1") "b1" = some bn ∧
        nd'.length = ndW.length * (1/2) ∧
        bn.length = ndW.length * (1 - 1/2) ∧
        bn.coordinates = applyDelta ndW.coordinates ndW.pointing (ndW.length * (1/2)) ∧
        bn.parent = "n" ∧
        nd'.children =
          ndW.children.take
            (binarySearch (List.map (childDist gW ndW) ndW.children) (ndW.length * (1/2))
              (fun q => q) 0).toNat ++ ["b1", "n_end"] ∧
        "n_end" ∈ nd'.children ∧
        (∀ c : String, c ∈ bn.children ↔
          c ∈ ndW.children ∧ ndW.length * (1/2) ≤ childDist gW ndW c ∧ c ≠ "n_end") ∧
        (∀ c ∈ bn.children,
          geoFind (introduceBreak gW "n" (1/2) "b1") c =
            some { geoGet gW c with parent := "b1" })) := by
  have hmap : List.map (childDist gW ndW) ndW.children = [3, 7, 10] := by
    with_unfolding_all rfl
  refine ⟨⟨by norm_num [ndW], by norm_num, by norm_num, by with_unfolding_all rfl⟩, ?_⟩
  exact claim_c2_amended gW "n" "b1" (1/2) ndW "n_end"
    (by with_unfolding_all rfl)
    (by norm_num [ndW]) (by norm_num) (by norm_num)
    (Or.inr (Or.inl rfl))
    (by rw [hmap]; decide)
    rfl
    (by with_unfolding_all rfl)
    (by decide) (by decide) (by decide)

end TDia
